import Mathlib

/-!
# Master/slave distributed sorting: a verification development of `main.go`

The Go program elects one master among `numberOfNodes` candidates
(`selectMasterNode`), cuts the input into chunks that are sorted in place
(`divideWork`), and folds the chunks with a two-way merge (`mergeSortedSlice`).

Embedding conventions.

* Go's `string` is only ever compared with the built-in `<` (and sorted by
  `sort.Strings`, which uses the same `<`).  That comparison is a decidable
  linear order, so the development is parametric in a type `α` carrying a
  `LinearOrder`; concrete runs instantiate `α` with `String`.
* A Go slice `[]string` is a view on a backing array.  Values that are only read
  are lists; the one place where aliasing matters (`divideWork` sorts windows of
  `sampleData` in place and keeps the windows in `dividedWork`) keeps the backing
  array and the windows `(lo, hi)` apart and reads the windows at the end.
* Go's `int` is taken 64 bits wide.  The arithmetic of `divideWork` on `int`
  wraps around (`addInt`, `subInt`, `divInt`); lengths and indices that are known
  to be in range are natural numbers.
* A run-time panic is an explicit exit value.
-/

namespace DistSort

/-! ## `mergeSortedSlice` (main.go, lines 229-254) -/

section Merge

variable {α : Type} [LinearOrder α]

/-- The first loop of `mergeSortedSlice` for a left operand `a :: x` whose head is
already known: it walks the right operand.  While `a < y[0]` fails the head of `y`
is written to `result` (the `else` branch); as soon as `a < y[0]` holds, `a` is
written and the loop goes on with `x` (continuation `k`).  When `y` runs out the
loop ends and the second loop copies what is left of the left operand. -/
def mergeSortedSlice.walk (a : α) (x : List α) (k : List α → List α) :
    List α → List α
  | [] => a :: x
  | b :: y => if a < b then a :: k (b :: y) else b :: mergeSortedSlice.walk a x k y

/-- The function `mergeSortedSlice(x, y []string) []string`.

`result[i] = v; i++` from `i = 0` writes the buffer from left to right, so the
list built here is the written part of `result`.  While both operands are
non-empty the smaller head is written, the head of `x` only if `x[0] < y[0]`;
afterwards the rest of `x` and then the rest of `y` are copied (one of the two
is empty). -/
def mergeSortedSlice : List α → List α → List α
  | [], y => y
  | a :: x, y => mergeSortedSlice.walk a x (mergeSortedSlice x) y

/-- The call `sort.Strings(s)` of the Go standard library: `s` rearranged in
non-decreasing order.  The order on strings is linear, so every correct sorting
procedure returns this same list. -/
def sortStrings (s : List α) : List α :=
  s.insertionSort (fun a b => a ≤ b)

end Merge

/-! ## `divideWork` (main.go, lines 173-197) -/

/-- The run-time panics `divideWork` can raise. -/
inductive Panic where
  | divideByZero
  | indexOutOfRange
  | sliceBoundsOutOfRange
  deriving DecidableEq, Repr

/-- How a call ends: it returns a value, it panics, or the loop budget given to
the model is used up before the loop condition fails. -/
inductive Exit (β : Type) where
  | returned (v : β)
  | panic (p : Panic)
  | outOfFuel
  deriving DecidableEq, Repr

/-- The largest value of Go's `int` (64 bits wide). -/
def maxInt : Int := 9223372036854775807

/-- The smallest value of Go's `int`. -/
def minInt : Int := -9223372036854775808

/-- Two's-complement wrap-around of an exact result into the range of `int`. -/
def wrapInt (n : Int) : Int :=
  (n + 9223372036854775808) % 18446744073709551616 - 9223372036854775808

/-- Go's `a + b` on `int`: the exact sum wrapped around.  The operands of the
program are values of `int`; a list can be longer than any Go slice, and on an
operand outside the range of `int` the sum is left exact. -/
def addInt (a b : Int) : Int :=
  if minInt ≤ a ∧ a ≤ maxInt ∧ minInt ≤ b ∧ b ≤ maxInt then wrapInt (a + b) else a + b

/-- Go's `a - b` on `int`, wrapped around like `addInt`. -/
def subInt (a b : Int) : Int :=
  if minInt ≤ a ∧ a ≤ maxInt ∧ minInt ≤ b ∧ b ≤ maxInt then wrapInt (a - b) else a - b

/-- Go's `a / b` on `int` for `b ≠ 0`: the quotient truncated towards zero, wrapped
around (`minInt / -1` is `minInt`). -/
def divInt (a b : Int) : Int :=
  if minInt ≤ a ∧ a ≤ maxInt ∧ minInt ≤ b ∧ b ≤ maxInt then wrapInt (a.tdiv b)
  else a.tdiv b

section Divide

variable {α : Type} [LinearOrder α]

/-- The slice expression `arr[lo:hi]` read as a value. -/
def sliceOf (arr : List α) (lo hi : Nat) : List α :=
  (arr.take hi).drop lo

/-- The effect of `sort.Strings(arr[lo:hi])` on the backing array `arr`: the
window is sorted in place, the cells outside it are not written. -/
def sortWindow (arr : List α) (lo hi : Nat) : List α :=
  arr.take lo ++ sortStrings (sliceOf arr lo hi) ++ arr.drop hi

/-- The chunking loop `for i := 0; i < lenOfData; i += chunkSize` (lines 180-189).
State: loop counter `i`, the backing array of `sampleData`, and the windows
appended to `dividedWork` so far; the result is the state in which the loop
stops and how it stops.  `end` is clamped to `lenOfData`, so the slice expression
`sampleData[i:end]` panics unless `0 ≤ i ≤ end`.  The first argument bounds the
number of iterations. -/
def chunkLoop (lenOfData chunkSize : Int) :
    Nat → Int → List α → List (Nat × Nat) → List α × List (Nat × Nat) × Exit Unit
  | 0, i, arr, windows =>
    if i < lenOfData then (arr, windows, Exit.outOfFuel)
    else (arr, windows, Exit.returned ())
  | fuel + 1, i, arr, windows =>
    if i < lenOfData then
      let stop := if addInt i chunkSize > lenOfData then lenOfData else addInt i chunkSize
      if 0 ≤ i ∧ i ≤ stop then
        chunkLoop lenOfData chunkSize fuel (addInt i chunkSize)
          (sortWindow arr i.toNat stop.toNat) (windows ++ [(i.toNat, stop.toNat)])
      else (arr, windows, Exit.panic Panic.sliceBoundsOutOfRange)
    else (arr, windows, Exit.returned ())

/-- The merge loop `for j := 1; j < numberOfSlaves; j++` (lines 193-195) with
`n = numberOfSlaves - j` iterations still to run.  Reading `dividedWork[j]` past
the end of `dividedWork` panics (`none`). -/
def mergeFold (dividedWork : List (List α)) : Nat → Nat → List α → Option (List α)
  | 0, _, result => some result
  | n + 1, j, result =>
    match dividedWork[j]? with
    | none => none
    | some chunk => mergeFold dividedWork n (j + 1) (mergeSortedSlice result chunk)

/-- What a call of `divideWork` leaves behind: the backing array of `sampleData`,
the global `dividedWork`, and how the call ended (with the local `result` when it
returned). -/
structure DivideRun (α : Type) where
  sampleData : List α
  dividedWork : List (List α)
  exit : Exit (List α)

/-- The function `divideWork(sampleData []string, numberOfSlaves int)`.
`dividedWork₀` is the global `dividedWork` before the call (its entries are
assumed not to alias `sampleData`).  `lenOfData`, `numberOfSlaves`, `chunkSize`,
`i` and `end` are Go `int`s: the sum `lenOfData + numberOfSlaves - 1` wraps around
when it leaves the range of `int`, which makes `chunkSize` negative or zero.  The
integer division by `numberOfSlaves = 0` panics.  The chunking loop is given
`lenOfData` iterations: a positive `chunkSize` moves `i` to a new cell each time
and a negative one panics in the first iteration; with `chunkSize = 0` the loop
never ends, which shows as `Exit.outOfFuel`.  The merge loop runs for
`j = 1, ..., numberOfSlaves - 1`. -/
def divideWork (sampleData : List α) (numberOfSlaves : Int)
    (dividedWork₀ : List (List α)) : DivideRun α :=
  let lenOfData : Int := sampleData.length
  if numberOfSlaves = 0 then
    { sampleData := sampleData, dividedWork := dividedWork₀,
      exit := Exit.panic Panic.divideByZero }
  else
    let chunkSize := divInt (subInt (addInt lenOfData numberOfSlaves) 1) numberOfSlaves
    match chunkLoop lenOfData chunkSize sampleData.length 0 sampleData [] with
    | (arr, windows, Exit.panic p) =>
      { sampleData := arr,
        dividedWork := dividedWork₀ ++ windows.map (fun w => sliceOf arr w.1 w.2),
        exit := Exit.panic p }
    | (arr, windows, Exit.outOfFuel) =>
      { sampleData := arr,
        dividedWork := dividedWork₀ ++ windows.map (fun w => sliceOf arr w.1 w.2),
        exit := Exit.outOfFuel }
    | (arr, windows, Exit.returned _) =>
      let dividedWork := dividedWork₀ ++ windows.map (fun w => sliceOf arr w.1 w.2)
      match dividedWork[0]? with
      | none =>
        { sampleData := arr, dividedWork := dividedWork,
          exit := Exit.panic Panic.indexOutOfRange }
      | some first =>
        match mergeFold dividedWork (numberOfSlaves - 1).toNat 1 first with
        | none =>
          { sampleData := arr, dividedWork := dividedWork,
            exit := Exit.panic Panic.indexOutOfRange }
        | some result =>
          { sampleData := arr, dividedWork := dividedWork,
            exit := Exit.returned result }

end Divide

/-! ## `selectMasterNode` and the registry (main.go, lines 17-30, 96-103, 199-216) -/

/-- The struct `NodeInfo`. -/
structure NodeInfo where
  NodeId : Int
  NodeIpAddr : String
  Port : String
  Status : String
  deriving DecidableEq, Repr

/-- The function `createNode(ipAddr, port)`. -/
def createNode (ipAddr : String) (port : String) : NodeInfo :=
  { NodeId := 1, NodeIpAddr := ipAddr, Port := port, Status := "down" }

/-- The package-level variables read and written by the election: `masterKey`,
`nodes` (a `map[NodeInfo]string`, kept as a list of entries with pairwise
distinct keys) and `masterNode`. -/
structure Globals where
  masterKey : Bool
  nodes : List (NodeInfo × String)
  masterNode : NodeInfo
  deriving DecidableEq, Repr

/-- The state at program start: `masterKey = false`, `nodes` is an empty map and
`masterNode` is the zero value of `NodeInfo`. -/
def Globals.initial : Globals :=
  { masterKey := false, nodes := [],
    masterNode := { NodeId := 0, NodeIpAddr := "", Port := "", Status := "" } }

/-- The map assignment `m[k] = v`: an entry already stored under `k` is replaced. -/
def mapAssign (m : List (NodeInfo × String)) (k : NodeInfo) (v : String) :
    List (NodeInfo × String) :=
  m.filter (fun e => decide (e.1 ≠ k)) ++ [(k, v)]

/-- The critical section of `selectMasterNode(node)`, from `mutex.Lock()` to
`mutex.Unlock()`, as one atomic step on the globals. -/
def selectMasterNode (g : Globals) (node : NodeInfo) : Globals :=
  if g.masterKey then
    { g with nodes := mapAssign g.nodes node "slave" }
  else
    { masterKey := true, masterNode := node, nodes := mapAssign g.nodes node "master" }

/-- The candidates pass through the critical section one after the other, in the
order in which they obtain the mutex. -/
def runElection (g : Globals) (order : List NodeInfo) : Globals :=
  order.foldl selectMasterNode g

/-- Number of registry entries carrying the given role. -/
def roleCount (nodes : List (NodeInfo × String)) (role : String) : Nat :=
  nodes.countP (fun e => decide (e.2 = role))

/-! ## The message exchange (main.go, lines 32-38, 78-94, 105-171) -/

/-- The struct `data`, the request/response exchanged between nodes.  The JSON
encoder and decoder of the standard library carry every field of a message
unchanged from one end of the connection to the other, so a message received is
the message sent. -/
structure data where
  Source : NodeInfo
  Dest : NodeInfo
  Message : List String
  deriving DecidableEq, Repr

/-- The function `getRequestObject(source, dest, dataToSort)`. -/
def getRequestObject (source : NodeInfo) (dest : NodeInfo) (dataToSort : List String) :
    data :=
  { Source := { NodeId := source.NodeId, NodeIpAddr := source.NodeIpAddr,
                Port := source.Port, Status := source.Status },
    Dest := { NodeId := dest.NodeId, NodeIpAddr := dest.NodeIpAddr,
              Port := dest.Port, Status := dest.Status },
    Message := dataToSort }

/-- The package-level state shared by the goroutines of the process: the global
`dividedWork` and the election globals. -/
structure Process where
  dividedWork : List (List String)
  globals : Globals
  deriving DecidableEq, Repr

/-- The request `connectToNode(node)` writes to the connection once `net.DialTCP`
has succeeded: the local copy of `node` gets status `"up"` and the request goes
from it to the global `masterNode` with the one-element payload `"Message"`.
(The dial itself, retried until it succeeds, is not part of the model.) -/
def connectToNode (p : Process) (node : NodeInfo) : data :=
  getRequestObject { node with Status := "up" } p.globals.masterNode ["Message"]

/-- The function `handleConnection(conn)` on the request decoded from `conn`: the
process state after the call and the response written to `conn`, if any.  With
source status `"up"` the response is built by `getRequestObject` from the request
itself; the `"down"` branch is empty; no branch assigns a package-level
variable. -/
def handleConnection (p : Process) (request : data) : Process × Option data :=
  if request.Source.Status = "up" then
    (p, some (getRequestObject request.Dest request.Source request.Message))
  else if request.Source.Status = "down" then
    (p, none)
  else
    (p, none)

/-- The function `handleResponseFromMaster(conn)` on the response decoded from
`conn`: the request it writes back. -/
def handleResponseFromMaster (response : data) : data :=
  let request := getRequestObject response.Dest response.Source response.Message
  { request with Source := { request.Source with Status := "down" } }

/-! ## `main` up to the end of the election (main.go, lines 40-65) -/

/-- Where `main` stands when the model stops following it. -/
inductive MainStop where
  | fatalTooFewNodes
  | panicked (p : Panic)
  | outOfFuel
  | electionDone
  deriving DecidableEq, Repr

/-- The state of the process at that point. -/
structure MainRun (α : Type) where
  dividedWork : List (List α)
  globals : Globals
  stop : MainStop

/-- Lines 56-65 of `main` with `numberOfSlaves` standing for `*numberOfNodes - 1`:
`divideWork` runs first; a panic in it ends the program; only after it has
returned are the candidates started, which pass through `selectMasterNode` in the
order `order` before `wg.Wait()` returns and the connections are opened. -/
def mainBody {α : Type} [LinearOrder α] (sampleData : List α) (numberOfSlaves : Int)
    (order : List NodeInfo) : MainRun α :=
  match (divideWork sampleData numberOfSlaves []).exit with
  | Exit.returned _ =>
    { dividedWork := (divideWork sampleData numberOfSlaves []).dividedWork,
      globals := runElection Globals.initial order, stop := MainStop.electionDone }
  | Exit.panic p =>
    { dividedWork := (divideWork sampleData numberOfSlaves []).dividedWork,
      globals := Globals.initial, stop := MainStop.panicked p }
  | Exit.outOfFuel =>
    { dividedWork := (divideWork sampleData numberOfSlaves []).dividedWork,
      globals := Globals.initial, stop := MainStop.outOfFuel }

/-- The function `main` from the check of `*numberOfNodes` (line 51) on, for the
input read by `readTextFile`: fewer than two nodes end the program with
`log.Fatalf` before `divideWork` is called. -/
def main {α : Type} [LinearOrder α] (numberOfNodes : Int) (sampleData : List α)
    (order : List NodeInfo) : MainRun α :=
  if numberOfNodes < 2 then
    { dividedWork := [], globals := Globals.initial, stop := MainStop.fatalTooFewNodes }
  else
    mainBody sampleData (subInt numberOfNodes 1) order

/-! ## Specification vocabulary -/

/-- The list `r` is an interleaving of `x` and `y`: it is obtained by taking, one
at a time and from the front, the elements of `x` and of `y`. -/
inductive Interleaving {α : Type} : List α → List α → List α → Prop where
  | nil : Interleaving [] [] []
  | left (a : α) {x y r : List α} : Interleaving x y r → Interleaving (a :: x) y (a :: r)
  | right (b : α) {x y r : List α} : Interleaving x y r → Interleaving x (b :: y) (b :: r)

/-- The `k`-th window of width `chunkSize` of an input: the slice
`input[k*chunkSize : min((k+1)*chunkSize, len(input))]`. -/
def window {α : Type} (input : List α) (chunkSize k : Nat) : List α :=
  sliceOf input (k * chunkSize) (min ((k + 1) * chunkSize) input.length)

/-- The chunk size `divideWork` computes for an input of length `L` and
`numberOfSlaves = W` is the natural number `cs`, stepping `i` by it from one window
start to the next never wraps around, and `cs` is positive unless the input is
empty. -/
structure ExactSteps (L : Nat) (W : Int) (cs : Nat) : Prop where
  size : divInt (subInt (addInt (L : Int) W) 1) W = (cs : Int)
  step : ∀ k : Nat, k * cs < L →
    addInt ((k * cs : Nat) : Int) (cs : Int) = (((k + 1) * cs : Nat) : Int)
  pos : 0 < L → 0 < cs

/-! ## Lemmas on `mergeSortedSlice` -/

theorem Interleaving.sublist_left {α : Type} {x y r : List α} (h : Interleaving x y r) :
    x.Sublist r := by
  induction h with
  | nil => exact List.Sublist.slnil
  | left a _ ih => exact ih.cons₂ a
  | right b _ ih => exact ih.cons b

theorem Interleaving.sublist_right {α : Type} {x y r : List α} (h : Interleaving x y r) :
    y.Sublist r := by
  induction h with
  | nil => exact List.Sublist.slnil
  | left a _ ih => exact ih.cons a
  | right b _ ih => exact ih.cons₂ b

section MergeLemmas

variable {α : Type} [LinearOrder α]

theorem merge_nil_left (y : List α) : mergeSortedSlice [] y = y := rfl

theorem merge_nil_right (x : List α) : mergeSortedSlice x [] = x := by
  cases x <;> rfl

theorem merge_cons_cons (a b : α) (x y : List α) :
    mergeSortedSlice (a :: x) (b :: y) =
      if a < b then a :: mergeSortedSlice x (b :: y)
      else b :: mergeSortedSlice (a :: x) y := rfl

theorem merge_perm_append (x y : List α) : (mergeSortedSlice x y).Perm (x ++ y) := by
  induction x generalizing y with
  | nil => simp [merge_nil_left]
  | cons a x ihx =>
    induction y with
    | nil => simp [merge_nil_right]
    | cons b y ihy =>
      rw [merge_cons_cons]
      split
      · exact (ihx (b :: y)).cons a
      · refine (ihy.cons b).trans ?_
        simpa using (@List.perm_middle α b (a :: x) y).symm

theorem merge_sorted_of_sorted (x y : List α)
    (hx : x.Sorted (fun a b => a ≤ b)) (hy : y.Sorted (fun a b => a ≤ b)) :
    (mergeSortedSlice x y).Sorted (fun a b => a ≤ b) := by
  induction x generalizing y with
  | nil => simpa [merge_nil_left] using hy
  | cons a x ihx =>
    induction y with
    | nil => simpa [merge_nil_right] using hx
    | cons b y ihy =>
      rw [merge_cons_cons]
      have hx' := List.sorted_cons.mp hx
      have hy' := List.sorted_cons.mp hy
      split
      next hab =>
        refine List.sorted_cons.mpr ⟨?_, ihx (b :: y) hx'.2 hy⟩
        intro c hc
        rcases List.mem_append.mp ((merge_perm_append x (b :: y)).mem_iff.mp hc) with h | h
        · exact hx'.1 c h
        · rcases List.mem_cons.mp h with h | h
          · exact h ▸ le_of_lt hab
          · exact le_trans (le_of_lt hab) (hy'.1 c h)
      next hab =>
        have hba : b ≤ a := not_lt.mp hab
        refine List.sorted_cons.mpr ⟨?_, ihy hy'.2⟩
        intro c hc
        rcases List.mem_append.mp ((merge_perm_append (a :: x) y).mem_iff.mp hc) with h | h
        · rcases List.mem_cons.mp h with h | h
          · exact h ▸ hba
          · exact le_trans hba (hx'.1 c h)
        · exact hy'.1 c h

theorem merge_interleaving (x y : List α) : Interleaving x y (mergeSortedSlice x y) := by
  have nilLeft : ∀ y : List α, Interleaving [] y y := by
    intro y
    induction y with
    | nil => exact Interleaving.nil
    | cons b y ih => exact Interleaving.right b ih
  have nilRight : ∀ x : List α, Interleaving x [] x := by
    intro x
    induction x with
    | nil => exact Interleaving.nil
    | cons a x ih => exact Interleaving.left a ih
  induction x generalizing y with
  | nil => simpa [merge_nil_left] using nilLeft y
  | cons a x ihx =>
    induction y with
    | nil => simpa [merge_nil_right] using nilRight (a :: x)
    | cons b y ihy =>
      rw [merge_cons_cons]
      split
      · exact Interleaving.left a (ihx (b :: y))
      · exact Interleaving.right b ihy

theorem sortStrings_sorted (s : List α) : (sortStrings s).Sorted (fun a b => a ≤ b) :=
  List.sorted_insertionSort (fun a b => a ≤ b) s

theorem sortStrings_perm (s : List α) : (sortStrings s).Perm s :=
  List.perm_insertionSort (fun a b => a ≤ b) s

theorem eq_sortStrings_of_sorted_perm {r s : List α}
    (hr : r.Sorted (fun a b => a ≤ b)) (hp : r.Perm s) : r = sortStrings s :=
  List.eq_of_perm_of_sorted (hp.trans (sortStrings_perm s).symm) hr (sortStrings_sorted s)

end MergeLemmas

/-! ## Lemmas on the election -/

theorem mapAssign_fresh (m : List (NodeInfo × String)) (k : NodeInfo) (v : String)
    (hk : ∀ e ∈ m, e.1 ≠ k) : mapAssign m k v = m ++ [(k, v)] := by
  unfold mapAssign
  rw [List.filter_eq_self.mpr]
  intro e he
  simpa using hk e he

theorem runElection_of_masterKey (order : List NodeInfo) :
    ∀ g : Globals, g.masterKey = true → order.Nodup →
      (∀ c ∈ order, ∀ e ∈ g.nodes, e.1 ≠ c) →
      runElection g order =
        { g with nodes := g.nodes ++ order.map (fun c => (c, "slave")) } := by
  induction order with
  | nil => intro g _ _ _; simp [runElection]
  | cons c cs ih =>
    intro g hk hnd hfresh
    have hnd' := List.nodup_cons.mp hnd
    have hstep : selectMasterNode g c = { g with nodes := g.nodes ++ [(c, "slave")] } := by
      simp [selectMasterNode, hk, mapAssign_fresh g.nodes c "slave" (hfresh c (by simp))]
    have hrun : runElection g (c :: cs) = runElection (selectMasterNode g c) cs := rfl
    rw [hrun, hstep, ih { g with nodes := g.nodes ++ [(c, "slave")] } hk hnd'.2]
    · simp
    · intro d hd e he
      rcases List.mem_append.mp he with h | h
      · exact hfresh d (List.mem_cons_of_mem c hd) e h
      · have : e = (c, "slave") := by simpa using h
        subst this
        intro hcd
        have hcd' : c = d := hcd
        exact hnd'.1 (hcd' ▸ hd)

theorem runElection_initial (c : NodeInfo) (cs : List NodeInfo) (hnd : (c :: cs).Nodup) :
    runElection Globals.initial (c :: cs) =
      { masterKey := true, masterNode := c,
        nodes := (c, "master") :: cs.map (fun d => (d, "slave")) } := by
  have hnd' := List.nodup_cons.mp hnd
  have hstep : selectMasterNode Globals.initial c =
      { masterKey := true, masterNode := c, nodes := [(c, "master")] } := by
    simp [selectMasterNode, Globals.initial, mapAssign]
  have hrun : runElection Globals.initial (c :: cs) =
      runElection (selectMasterNode Globals.initial c) cs := rfl
  rw [hrun, hstep, runElection_of_masterKey cs _ rfl hnd'.2]
  · simp
  · intro d hd e he
    have : e = (c, "master") := by simpa using he
    subst this
    intro hcd
    have hcd' : c = d := hcd
    exact hnd'.1 (hcd' ▸ hd)

/-! ## Arithmetic of the chunk size -/

theorem chunkSize_mul_ge (L W : Nat) (hW : 0 < W) : L ≤ (L + W - 1) / W * W := by
  have h1 := Nat.div_add_mod (L + W - 1) W
  have h2 := Nat.mod_lt (L + W - 1) hW
  have h3 : W * ((L + W - 1) / W) = (L + W - 1) / W * W := Nat.mul_comm _ _
  omega

theorem chunkSize_le_of_le_mul (L W m : Nat) (hW : 0 < W) (h : L ≤ m * W) :
    (L + W - 1) / W ≤ m := by
  apply Nat.le_of_lt_succ
  rw [Nat.div_lt_iff_lt_mul hW, Nat.succ_mul]
  omega

theorem chunkSize_eq_ceil (L W : Nat) (hW : 0 < W) :
    (L + W - 1) / W = ⌈(L : ℚ) / (W : ℚ)⌉₊ := by
  have hWq : (0 : ℚ) < (W : ℚ) := by exact_mod_cast hW
  apply le_antisymm
  · apply chunkSize_le_of_le_mul L W _ hW
    have h1 : (L : ℚ) / (W : ℚ) ≤ (⌈(L : ℚ) / (W : ℚ)⌉₊ : ℚ) := Nat.le_ceil _
    rw [div_le_iff₀ hWq] at h1
    exact_mod_cast h1
  · rw [Nat.ceil_le, div_le_iff₀ hWq]
    exact_mod_cast chunkSize_mul_ge L W hW

theorem chunkSize_pos (L W : Nat) (hL : 0 < L) (hW : 0 < W) : 0 < (L + W - 1) / W := by
  apply Nat.div_pos <;> omega

/-! ## Arithmetic on Go's `int` -/

theorem wrapInt_of_range (n : Int) (h1 : minInt ≤ n) (h2 : n ≤ maxInt) : wrapInt n = n := by
  unfold wrapInt maxInt minInt at *
  omega

/-- Adding two natural numbers whose sum fits an `int` is exact. -/
theorem addInt_natCast (a b : Nat) (h : ((a + b : Nat) : Int) ≤ maxInt) :
    addInt (a : Int) (b : Int) = ((a + b : Nat) : Int) := by
  unfold addInt
  split
  · rw [wrapInt_of_range] <;> unfold maxInt minInt at * <;> omega
  · omega

/-- The chunk size without overflow: the rounded-up quotient. -/
theorem chunkSize_natCast (L W : Nat) (hW : 0 < W) (hno : (L : Int) + (W : Int) - 1 ≤ maxInt) :
    divInt (subInt (addInt (L : Int) (W : Int)) 1) (W : Int) =
      (((L + W - 1) / W : Nat) : Int) := by
  have hsub : subInt (addInt (L : Int) (W : Int)) 1 = ((L + W - 1 : Nat) : Int) := by
    unfold subInt addInt wrapInt maxInt minInt at *
    split <;> split <;> omega
  have htdiv : ((L + W - 1 : Nat) : Int).tdiv (W : Int) = (((L + W - 1) / W : Nat) : Int) := by
    rw [Int.ofNat_tdiv]
  have hle : (L + W - 1) / W ≤ L + W - 1 := Nat.div_le_self _ _
  rw [hsub]
  unfold divInt
  rw [htdiv]
  generalize (L + W - 1) / W = q at hle
  split
  · apply wrapInt_of_range <;> unfold maxInt minInt at * <;> omega
  · rfl

theorem chunkSize_mul_le (L W : Nat) : (L + W - 1) / W * W ≤ L + W - 1 :=
  Nat.div_mul_le_self _ _

/-- Without overflow in `lenOfData + numberOfSlaves - 1` the chunk size is the
rounded-up quotient and the loop counter never wraps around. -/
theorem exactSteps_of_no_overflow (L W : Nat) (hW : 0 < W)
    (hno : (L : Int) + (W : Int) - 1 ≤ maxInt) :
    ExactSteps L (W : Int) ((L + W - 1) / W) := by
  refine ⟨chunkSize_natCast L W hW hno, ?_, fun hL => chunkSize_pos L W hL hW⟩
  intro k hk
  have hge := chunkSize_mul_ge L W hW
  have hle := chunkSize_mul_le L W
  have hkW : k < W := by
    by_contra hnot
    have : W * ((L + W - 1) / W) ≤ k * ((L + W - 1) / W) :=
      Nat.mul_le_mul_right _ (Nat.le_of_not_lt hnot)
    rw [Nat.mul_comm] at this
    omega
  have hk1 : (k + 1) * ((L + W - 1) / W) ≤ (L + W - 1) / W * W := by
    rw [Nat.mul_comm ((L + W - 1) / W) W]
    exact Nat.mul_le_mul_right _ hkW
  have hsum : k * ((L + W - 1) / W) + (L + W - 1) / W = (k + 1) * ((L + W - 1) / W) := by
    rw [Nat.add_mul, Nat.one_mul]
  rw [← hsum]
  apply addInt_natCast
  rw [hsum]
  have : (((k + 1) * ((L + W - 1) / W) : Nat) : Int) ≤ ((L + W - 1 : Nat) : Int) :=
    Int.ofNat_le.mpr (Nat.le_trans hk1 hle)
  omega

/-- With one slave the chunk size is the length of the input. -/
theorem exactSteps_one (L : Nat) : ExactSteps L 1 L := by
  refine ⟨?_, ?_, fun h => h⟩
  · unfold divInt subInt addInt wrapInt maxInt minInt
    simp only [Int.tdiv_one]
    split <;> split <;> split <;> omega
  · intro k hk
    have hk0 : k = 0 := by
      by_contra hne
      have : 1 ≤ k := Nat.pos_of_ne_zero hne
      have : L ≤ k * L := Nat.le_mul_of_pos_left L this
      omega
    subst hk0
    simp only [Nat.zero_mul, Nat.zero_add, Nat.one_mul, Nat.cast_zero]
    unfold addInt wrapInt maxInt minInt
    split <;> omega

/-! ## Lemmas on `divideWork` -/

theorem sliceOf_length {α : Type} (arr : List α) (lo hi : Nat) (h : hi ≤ arr.length) :
    (sliceOf arr lo hi).length = hi - lo := by
  simp [sliceOf, Nat.min_eq_left h]

theorem take_append_sliceOf {α : Type} (arr : List α) (lo hi : Nat) (hlo : lo ≤ hi) :
    arr.take lo ++ sliceOf arr lo hi = arr.take hi := by
  have h : (arr.take hi).take lo = arr.take lo := by
    rw [List.take_take, Nat.min_eq_left hlo]
  unfold sliceOf
  rw [← h, List.take_append_drop]

/-- A window depends only on the cells before its upper end. -/
theorem sliceOf_congr_take {α : Type} (a b : List α) (lo hi n : Nat) (hn : hi ≤ n)
    (h : a.take n = b.take n) : sliceOf a lo hi = sliceOf b lo hi := by
  unfold sliceOf
  have ha : a.take hi = (a.take n).take hi := by rw [List.take_take, Nat.min_eq_left hn]
  have hb : b.take hi = (b.take n).take hi := by rw [List.take_take, Nat.min_eq_left hn]
  rw [ha, hb, h]

/-- A window depends only on the cells from its lower end on. -/
theorem sliceOf_congr_drop {α : Type} (a b : List α) (lo hi n : Nat) (hn : n ≤ lo)
    (h : a.drop n = b.drop n) : sliceOf a lo hi = sliceOf b lo hi := by
  unfold sliceOf
  rw [List.drop_take, List.drop_take]
  have ha : a.drop lo = (a.drop n).drop (lo - n) := by
    rw [List.drop_drop]; congr 1; omega
  have hb : b.drop lo = (b.drop n).drop (lo - n) := by
    rw [List.drop_drop]; congr 1; omega
  rw [ha, hb, h]

theorem sliceOf_append_drop {α : Type} (a : List α) (i n : Nat) :
    sliceOf a i (min (i + n) a.length) ++ a.drop (i + n) = a.drop i := by
  unfold sliceOf
  have h1 : a.take (min (i + n) a.length) = a.take (i + n) := by
    rcases Nat.le_total (i + n) a.length with h | h
    · rw [Nat.min_eq_left h]
    · rw [Nat.min_eq_right h, List.take_of_length_le h, List.take_of_length_le le_rfl]
  rw [h1]
  conv_rhs => rw [← List.take_append_drop (i + n) a]
  rcases Nat.le_total (i + n) a.length with h | h
  · rw [List.drop_append_of_le_length (by simp; omega)]
  · rw [List.drop_of_length_le h, List.append_nil, List.append_nil]

section DivideLemmas

variable {α : Type} [LinearOrder α]

theorem sortStrings_length (s : List α) : (sortStrings s).length = s.length :=
  (sortStrings_perm s).length_eq

theorem sortWindow_length (arr : List α) (lo hi : Nat) (hlo : lo ≤ hi)
    (hhi : hi ≤ arr.length) : (sortWindow arr lo hi).length = arr.length := by
  simp [sortWindow, sortStrings_length, sliceOf_length arr lo hi hhi]
  omega

theorem sortWindow_perm (arr : List α) (lo hi : Nat) (hlo : lo ≤ hi) :
    (sortWindow arr lo hi).Perm arr := by
  have h1 : (arr.take lo ++ sortStrings (sliceOf arr lo hi)).Perm (arr.take hi) := by
    rw [← take_append_sliceOf arr lo hi hlo]
    exact (sortStrings_perm _).append_left _
  have h2 := h1.append_right (arr.drop hi)
  rw [List.take_append_drop] at h2
  exact h2

theorem sortWindow_take (arr : List α) (lo hi j : Nat) (hj : j ≤ lo)
    (hhi : lo ≤ arr.length) : (sortWindow arr lo hi).take j = arr.take j := by
  unfold sortWindow
  rw [List.append_assoc, List.take_append_of_le_length (by simp; omega),
    List.take_take, Nat.min_eq_left hj]

theorem sortWindow_drop (arr : List α) (lo hi : Nat) (hlo : lo ≤ hi)
    (hhi : hi ≤ arr.length) : (sortWindow arr lo hi).drop hi = arr.drop hi := by
  unfold sortWindow
  have hl : (arr.take lo ++ sortStrings (sliceOf arr lo hi)).length = hi := by
    simp [sortStrings_length, sliceOf_length arr lo hi hhi]
    omega
  exact List.drop_left' hl

theorem sliceOf_sortWindow_self (arr : List α) (lo hi : Nat) (hlo : lo ≤ hi)
    (hhi : hi ≤ arr.length) :
    sliceOf (sortWindow arr lo hi) lo hi = sortStrings (sliceOf arr lo hi) := by
  have hl : (arr.take lo ++ sortStrings (sliceOf arr lo hi)).length = hi := by
    simp [sortStrings_length, sliceOf_length arr lo hi hhi]
    omega
  have hlen : (arr.take lo).length = lo := by simp; omega
  have h1 : (sortWindow arr lo hi).take hi = arr.take lo ++ sortStrings (sliceOf arr lo hi) :=
    List.take_left' hl
  have h2 : sliceOf (sortWindow arr lo hi) lo hi = ((sortWindow arr lo hi).take hi).drop lo := rfl
  rw [h2, h1]
  exact List.drop_left' hlen

/-- Sorting one window in place leaves every window to its right untouched. -/
theorem sliceOf_sortWindow_right (arr : List α) (lo hi lo' hi' : Nat) (hlo : lo ≤ hi)
    (hhi : hi ≤ arr.length) (h : hi ≤ lo') :
    sliceOf (sortWindow arr lo hi) lo' hi' = sliceOf arr lo' hi' :=
  sliceOf_congr_drop _ _ lo' hi' hi h (sortWindow_drop arr lo hi hlo hhi)

/-- Sorting one window in place leaves every window to its left untouched. -/
theorem sliceOf_sortWindow_left (arr : List α) (lo hi lo' hi' : Nat)
    (hhi : lo ≤ arr.length) (h : hi' ≤ lo) :
    sliceOf (sortWindow arr lo hi) lo' hi' = sliceOf arr lo' hi' :=
  sliceOf_congr_take _ _ lo' hi' lo h (sortWindow_take arr lo hi lo le_rfl hhi)

/-- What the chunking loop computes from a state `(i, arr, windows)` when the step
`chunkSize` is positive, stepping never wraps around, and the iteration budget
covers the cells still to visit. -/
theorem chunkLoop_spec (L cs : Nat) (hcs : 0 < cs) :
    ∀ (fuel i : Nat) (arr : List α) (ws : List (Nat × Nat)),
      arr.length = L → L ≤ i + fuel →
      (∀ k : Nat, i + k * cs < L →
        addInt ((i + k * cs : Nat) : Int) (cs : Int) = ((i + (k + 1) * cs : Nat) : Int)) →
      ∃ (arr' : List α) (new : List (Nat × Nat)),
        chunkLoop (L : Int) (cs : Int) fuel (i : Int) arr ws =
          (arr', ws ++ new, Exit.returned ()) ∧
        arr'.length = L ∧ arr'.Perm arr ∧ arr'.take i = arr.take i ∧
        (∀ k, k < new.length ↔ i + k * cs < L) ∧
        (∀ k, k < new.length → new[k]? = some (i + k * cs, min (i + (k + 1) * cs) L)) ∧
        (∀ k, k < new.length →
          sliceOf arr' (i + k * cs) (min (i + (k + 1) * cs) L) =
            sortStrings (sliceOf arr (i + k * cs) (min (i + (k + 1) * cs) L))) ∧
        (new.map (fun w => sliceOf arr' w.1 w.2)).flatten = arr'.drop i := by
  intro fuel
  have stopped : ∀ (fuel i : Nat) (arr : List α) (ws : List (Nat × Nat)),
      arr.length = L → L ≤ i →
      ∃ (arr' : List α) (new : List (Nat × Nat)),
        chunkLoop (L : Int) (cs : Int) fuel (i : Int) arr ws =
          (arr', ws ++ new, Exit.returned ()) ∧
        arr'.length = L ∧ arr'.Perm arr ∧ arr'.take i = arr.take i ∧
        (∀ k, k < new.length ↔ i + k * cs < L) ∧
        (∀ k, k < new.length → new[k]? = some (i + k * cs, min (i + (k + 1) * cs) L)) ∧
        (∀ k, k < new.length →
          sliceOf arr' (i + k * cs) (min (i + (k + 1) * cs) L) =
            sortStrings (sliceOf arr (i + k * cs) (min (i + (k + 1) * cs) L))) ∧
        (new.map (fun w => sliceOf arr' w.1 w.2)).flatten = arr'.drop i := by
    intro fuel i arr ws hlen hi
    have hnot : ¬ (i : Int) < (L : Int) := by omega
    refine ⟨arr, [], ?_, hlen, List.Perm.refl _, rfl, ?_, ?_, ?_, ?_⟩
    · cases fuel <;> simp [chunkLoop, hnot]
    · intro k
      simp only [List.length_nil, Nat.not_lt_zero, false_iff, Nat.not_lt]
      exact Nat.le_trans hi (Nat.le_add_right _ _)
    · intro k hk; simp at hk
    · intro k hk; simp at hk
    · simp [List.drop_of_length_le (hlen ▸ hi)]
  induction fuel with
  | zero =>
    intro i arr ws hlen hfuel _
    exact stopped 0 i arr ws hlen (by omega)
  | succ fuel ih =>
    intro i arr ws hlen hfuel hadd
    by_cases hi : i < L
    · have hadd0 : addInt (i : Int) (cs : Int) = ((i + cs : Nat) : Int) := by
        have := hadd 0 (by simpa using hi)
        simpa using this
      have hstop : (if ((i + cs : Nat) : Int) > (L : Int) then (L : Int)
          else ((i + cs : Nat) : Int)) = ((min (i + cs) L : Nat) : Int) := by
        split <;> omega
      have hstop_le : min (i + cs) L ≤ L := Nat.min_le_right _ _
      have hi_le : i ≤ min (i + cs) L := by omega
      have hlen1 : (sortWindow arr i (min (i + cs) L)).length = L := by
        rw [sortWindow_length arr i _ hi_le (hlen ▸ hstop_le), hlen]
      have hadd' : ∀ k : Nat, i + cs + k * cs < L →
          addInt ((i + cs + k * cs : Nat) : Int) (cs : Int) =
            ((i + cs + (k + 1) * cs : Nat) : Int) := by
        intro k hk
        have e1 : i + cs + k * cs = i + (k + 1) * cs := by ring
        have e2 : i + cs + (k + 1) * cs = i + (k + 1 + 1) * cs := by ring
        rw [e1, e2]
        exact hadd (k + 1) (e1 ▸ hk)
      obtain ⟨arr', new', heq, hlen', hperm, htake, hcount, hwin, hsorted, hjoin⟩ :=
        ih (i + cs) (sortWindow arr i (min (i + cs) L)) (ws ++ [(i, min (i + cs) L)])
          hlen1 (by omega) hadd'
      have htake_stop : arr'.take (min (i + cs) L) =
          (sortWindow arr i (min (i + cs) L)).take (min (i + cs) L) := by
        have h1 := congrArg (List.take (min (i + cs) L)) htake
        rw [List.take_take, List.take_take, Nat.min_eq_left (Nat.min_le_left _ _)] at h1
        exact h1
      refine ⟨arr', (i, min (i + cs) L) :: new', ?_, hlen', ?_, ?_, ?_, ?_, ?_, ?_⟩
      · have hiL : (i : Int) < (L : Int) := by omega
        have hbounds : (0 : Int) ≤ (i : Int) ∧ (i : Int) ≤ ((min (i + cs) L : Nat) : Int) := by
          constructor <;> omega
        simp only [chunkLoop, hiL, if_true, hadd0, hstop, hbounds, and_self, Int.toNat_ofNat]
        rw [heq]; simp
      · exact hperm.trans (sortWindow_perm arr i _ hi_le)
      · have h1 := congrArg (List.take i) htake
        rw [List.take_take, List.take_take, Nat.min_eq_left (Nat.le_add_right _ _)] at h1
        rw [h1]
        exact sortWindow_take arr i _ i le_rfl (by omega)
      · intro k
        cases k with
        | zero => simp [hi]
        | succ k =>
          have := hcount k
          simp only [List.length_cons, Nat.add_lt_add_iff_right]
          rw [this]
          have e : i + cs + k * cs = i + (k + 1) * cs := by ring
          rw [e]
      · intro k hk
        cases k with
        | zero => simp
        | succ k =>
          have hk' : k < new'.length := by simpa using hk
          rw [List.getElem?_cons_succ, hwin k hk']
          have e1 : i + cs + k * cs = i + (k + 1) * cs := by ring
          have e2 : i + cs + (k + 1) * cs = i + (k + 1 + 1) * cs := by ring
          rw [e1, e2]
      · intro k hk
        cases k with
        | zero =>
          simp only [Nat.zero_mul, Nat.add_zero, Nat.zero_add, Nat.one_mul]
          rw [sliceOf_congr_take arr' (sortWindow arr i (min (i + cs) L)) i _ _ le_rfl
            htake_stop]
          exact sliceOf_sortWindow_self arr i _ hi_le (hlen ▸ hstop_le)
        | succ k =>
          have hk' : k < new'.length := by simpa using hk
          have h1 := hsorted k hk'
          have e1 : i + cs + k * cs = i + (k + 1) * cs := by ring
          have e2 : i + cs + (k + 1) * cs = i + (k + 1 + 1) * cs := by ring
          rw [e1, e2] at h1
          rw [h1, sliceOf_sortWindow_right arr i _ _ _ hi_le (hlen ▸ hstop_le)]
          have : cs ≤ (k + 1) * cs := Nat.le_mul_of_pos_left cs (Nat.succ_pos k)
          omega
      · simp only [List.map_cons, List.flatten_cons, hjoin]
        have := sliceOf_append_drop arr' i cs
        rw [hlen'] at this
        exact this
    · obtain ⟨arr', new, h⟩ := stopped (fuel + 1) i arr ws hlen (by omega)
      exact ⟨arr', new, h⟩

/-- The chunking loop as `divideWork` starts it: all of `sampleData`, no window
yet, when the chunk size is the natural number `cs` and stepping is exact. -/
theorem chunkLoop_run (input : List α) (W : Int) (cs : Nat)
    (hs : ExactSteps input.length W cs) :
    ∃ (arr' : List α) (windows : List (Nat × Nat)),
      chunkLoop (input.length : Int) (cs : Int) input.length 0 input [] =
        (arr', windows, Exit.returned ()) ∧
      arr'.length = input.length ∧ arr'.Perm input ∧
      (∀ k, k < windows.length ↔ k * cs < input.length) ∧
      (∀ k, k < windows.length →
        windows[k]? = some (k * cs, min ((k + 1) * cs) input.length)) ∧
      (∀ k, k < windows.length →
        sliceOf arr' (k * cs) (min ((k + 1) * cs) input.length) =
          sortStrings (window input cs k)) ∧
      (windows.map (fun w => sliceOf arr' w.1 w.2)).flatten = arr' := by
  rcases Nat.eq_zero_or_pos input.length with hL | hL
  · refine ⟨input, [], ?_, rfl, List.Perm.refl _, ?_, ?_, ?_, ?_⟩
    · simp [hL, chunkLoop]
    · intro k; simp [hL]
    · intro k hk; simp at hk
    · intro k hk; simp at hk
    · simp [List.length_eq_zero.mp hL]
  · have hadd : ∀ k : Nat, 0 + k * cs < input.length →
        addInt ((0 + k * cs : Nat) : Int) (cs : Int) = ((0 + (k + 1) * cs : Nat) : Int) := by
      intro k hk
      simp only [Nat.zero_add] at hk ⊢
      exact hs.step k hk
    obtain ⟨arr', new, heq, hlen, hperm, _, hcount, hwin, hsorted, hjoin⟩ :=
      chunkLoop_spec input.length cs (hs.pos hL) input.length 0 input [] rfl (by omega) hadd
    refine ⟨arr', new, by simpa using heq, hlen, hperm, ?_, ?_, ?_, by simpa using hjoin⟩
    · intro k; simpa using hcount k
    · intro k hk; simpa using hwin k hk
    · intro k hk; simpa [window] using hsorted k hk

theorem divideWork_state (input : List α) (W : Int) (cs : Nat) (dw0 : List (List α))
    (arr' : List α) (windows : List (Nat × Nat)) (hW : W ≠ 0)
    (hs : ExactSteps input.length W cs)
    (h : chunkLoop (input.length : Int) (cs : Int) input.length 0 input [] =
      (arr', windows, Exit.returned ())) :
    (divideWork input W dw0).sampleData = arr' ∧
    (divideWork input W dw0).dividedWork =
      dw0 ++ windows.map (fun w => sliceOf arr' w.1 w.2) ∧
    (divideWork input W dw0).exit =
      (match (dw0 ++ windows.map (fun w => sliceOf arr' w.1 w.2))[0]? with
        | none => Exit.panic Panic.indexOutOfRange
        | some first =>
          match mergeFold (dw0 ++ windows.map (fun w => sliceOf arr' w.1 w.2))
              (W - 1).toNat 1 first with
          | none => Exit.panic Panic.indexOutOfRange
          | some result => Exit.returned result) := by
  unfold divideWork
  simp only [hW, if_false, hs.size, h]
  split
  · exact ⟨rfl, rfl, rfl⟩
  · split <;> exact ⟨rfl, rfl, rfl⟩

/-- The chunks `divideWork` appends to an empty `dividedWork`: chunk `k` exists
exactly when window `k` starts inside the input, it is that window sorted, and
the chunks laid end to end are the backing array after the call, a rearrangement
of the input. -/
theorem divideWork_chunks (input : List α) (W : Int) (cs : Nat) (hW : W ≠ 0)
    (hs : ExactSteps input.length W cs) :
    (∀ k, k < (divideWork input W []).dividedWork.length ↔ k * cs < input.length) ∧
    (∀ k, k < (divideWork input W []).dividedWork.length →
      (divideWork input W []).dividedWork[k]? = some (sortStrings (window input cs k))) ∧
    (divideWork input W []).dividedWork.flatten = (divideWork input W []).sampleData ∧
    (divideWork input W []).sampleData.Perm input := by
  obtain ⟨arr', windows, heq, _, hperm, hcount, hwin, hsorted, hjoin⟩ :=
    chunkLoop_run input W cs hs
  obtain ⟨h1, h2, _⟩ := divideWork_state input W cs [] arr' windows hW hs heq
  rw [h1, h2]
  refine ⟨?_, ?_, by simpa using hjoin, hperm⟩
  · intro k; simpa using hcount k
  · intro k hk
    have hk' : k < windows.length := by simpa using hk
    simp only [List.nil_append, List.getElem?_map, hwin k hk', Option.map_some']
    rw [hsorted k hk']

theorem mergeFold_eq_foldl (dw : List (List α)) :
    ∀ (n j : Nat) (result : List α), j + n ≤ dw.length →
      mergeFold dw n j result =
        some (((dw.drop j).take n).foldl mergeSortedSlice result) := by
  intro n
  induction n with
  | zero => intro j result _; simp [mergeFold]
  | succ n ih =>
    intro j result h
    have hj : j < dw.length := by omega
    rw [mergeFold, List.getElem?_eq_getElem hj]
    simp only
    rw [ih (j + 1) _ (by omega), List.drop_eq_getElem_cons hj, List.take_succ_cons,
      List.foldl_cons]

theorem mergeFold_eq_none (dw : List (List α)) :
    ∀ (n j : Nat) (result : List α), 0 < n → dw.length < j + n →
      mergeFold dw n j result = none := by
  intro n
  induction n with
  | zero => intro j result h; exact absurd h (Nat.lt_irrefl 0)
  | succ n ih =>
    intro j result _ h
    rw [mergeFold]
    by_cases hj : j < dw.length
    · rw [List.getElem?_eq_getElem hj]
      simp only
      exact ih (j + 1) _ (by omega) (by omega)
    · rw [List.getElem?_eq_none (Nat.not_lt.mp hj)]

theorem foldl_merge_perm (cs : List (List α)) :
    ∀ result : List α, (cs.foldl mergeSortedSlice result).Perm (result ++ cs.flatten) := by
  induction cs with
  | nil => intro result; simp
  | cons c cs ih =>
    intro result
    rw [List.foldl_cons, List.flatten_cons, ← List.append_assoc]
    exact (ih _).trans ((merge_perm_append result c).append_right _)

theorem foldl_merge_sorted (cs : List (List α))
    (hcs : ∀ c ∈ cs, c.Sorted (fun a b => a ≤ b)) :
    ∀ result : List α, result.Sorted (fun a b => a ≤ b) →
      (cs.foldl mergeSortedSlice result).Sorted (fun a b => a ≤ b) := by
  induction cs with
  | nil => intro result h; simpa using h
  | cons c cs ih =>
    intro result h
    rw [List.foldl_cons]
    exact ih (fun d hd => hcs d (List.mem_cons_of_mem c hd)) _
      (merge_sorted_of_sorted result c h (hcs c (List.mem_cons_self c cs)))

theorem divideWork_exit_eq (input : List α) (W : Int) (cs : Nat) (hW : W ≠ 0)
    (hs : ExactSteps input.length W cs) :
    (divideWork input W []).exit =
      (match (divideWork input W []).dividedWork[0]? with
        | none => Exit.panic Panic.indexOutOfRange
        | some first =>
          match mergeFold (divideWork input W []).dividedWork (W - 1).toNat 1 first with
          | none => Exit.panic Panic.indexOutOfRange
          | some result => Exit.returned result) := by
  obtain ⟨arr', windows, heq, _⟩ := chunkLoop_run input W cs hs
  obtain ⟨_, h2, h3⟩ := divideWork_state input W cs [] arr' windows hW hs heq
  rw [h3, h2]

theorem divideWork_chunks_sorted (input : List α) (W : Int) (cs : Nat) (hW : W ≠ 0)
    (hs : ExactSteps input.length W cs) :
    ∀ c ∈ (divideWork input W []).dividedWork, c.Sorted (fun a b => a ≤ b) := by
  intro c hc
  obtain ⟨k, hk, hck⟩ := List.mem_iff_getElem.mp hc
  have h := (divideWork_chunks input W cs hW hs).2.1 k hk
  rw [List.getElem?_eq_getElem hk, hck] at h
  rw [Option.some.inj h]
  exact sortStrings_sorted _

/-- Without overflow the number of chunks never exceeds `numberOfSlaves`. -/
theorem divideWork_chunks_le (input : List α) (W : Nat) (hW : 0 < W)
    (hno : (input.length : Int) + (W : Int) - 1 ≤ maxInt) :
    (divideWork input (W : Int) []).dividedWork.length ≤ W := by
  by_contra hlt
  have hW' : (W : Int) ≠ 0 := by omega
  have h := ((divideWork_chunks input (W : Int) _ hW'
    (exactSteps_of_no_overflow input.length W hW hno)).1 W).mp (Nat.lt_of_not_le hlt)
  have h2 := chunkSize_mul_ge input.length W hW
  rw [Nat.mul_comm] at h
  omega

/-- When stepping is exact the iteration budget `lenOfData` of the chunking loop
suffices: the call returns or panics. -/
theorem divideWork_exit_ne_outOfFuel (input : List α) (W : Int) (cs : Nat)
    (hs : ExactSteps input.length W cs) :
    (divideWork input W []).exit ≠ Exit.outOfFuel := by
  by_cases hW : W = 0
  · subst hW
    simp [divideWork]
  · rw [divideWork_exit_eq input W cs hW hs]
    split
    · intro h; exact Exit.noConfusion h
    · split <;> intro h <;> exact Exit.noConfusion h

/-- With as many chunks as slaves the call returns, and `result` is the input sorted. -/
theorem divideWork_returns_of_chunks_eq (input : List α) (W : Nat) (cs : Nat) (hW : 0 < W)
    (hs : ExactSteps input.length (W : Int) cs)
    (hn : (divideWork input (W : Int) []).dividedWork.length = W) :
    (divideWork input (W : Int) []).exit = Exit.returned (sortStrings input) := by
  have hW' : (W : Int) ≠ 0 := by omega
  have hWn : ((W : Int) - 1).toNat = W - 1 := by omega
  rw [divideWork_exit_eq input (W : Int) cs hW' hs, hWn]
  obtain ⟨_, _, hflat, hperm⟩ := divideWork_chunks input (W : Int) cs hW' hs
  have hsorted := divideWork_chunks_sorted input (W : Int) cs hW' hs
  generalize (divideWork input (W : Int) []).dividedWork = dw at hn hflat hsorted
  generalize (divideWork input (W : Int) []).sampleData = arr at hflat hperm
  cases dw with
  | nil => simp at hn; omega
  | cons c0 rest =>
    have hlen : 1 + (W - 1) ≤ (c0 :: rest).length := by simp at hn ⊢; omega
    simp only [List.getElem?_cons_zero]
    rw [mergeFold_eq_foldl (c0 :: rest) (W - 1) 1 c0 hlen]
    simp only
    congr 1
    have ht : ((c0 :: rest).drop 1).take (W - 1) = rest := by
      simp only [List.drop_succ_cons, List.drop_zero]
      apply List.take_of_length_le
      simp at hn; omega
    rw [ht]
    apply eq_sortStrings_of_sorted_perm
    · exact foldl_merge_sorted rest (fun d hd => hsorted d (List.mem_cons_of_mem c0 hd)) c0
        (hsorted c0 (List.mem_cons_self c0 rest))
    · refine (foldl_merge_perm rest c0).trans ?_
      rw [← List.flatten_cons, hflat]
      exact hperm

/-- With fewer chunks than slaves the call panics with an index out of range. -/
theorem divideWork_panics_of_chunks_lt (input : List α) (W : Nat) (cs : Nat) (hW : 0 < W)
    (hs : ExactSteps input.length (W : Int) cs)
    (hn : (divideWork input (W : Int) []).dividedWork.length < W) :
    (divideWork input (W : Int) []).exit = Exit.panic Panic.indexOutOfRange := by
  have hW' : (W : Int) ≠ 0 := by omega
  have hWn : ((W : Int) - 1).toNat = W - 1 := by omega
  rw [divideWork_exit_eq input (W : Int) cs hW' hs, hWn]
  generalize (divideWork input (W : Int) []).dividedWork = dw at hn
  cases dw with
  | nil => simp
  | cons c0 rest =>
    simp only [List.getElem?_cons_zero]
    rw [mergeFold_eq_none (c0 :: rest) (W - 1) 1 c0 (by simp at hn; omega)
      (by simp at hn ⊢; omega)]

/-- With `chunkSize = 0` the loop appends an empty window in every iteration and
never leaves: whatever the budget, it is used up. -/
theorem chunkLoop_zero_step (L : Int) :
    ∀ (fuel : Nat) (i : Int) (arr : List α) (ws : List (Nat × Nat)),
      0 ≤ i → i < L → i ≤ maxInt →
      (chunkLoop L 0 fuel i arr ws).2.2 = Exit.outOfFuel := by
  intro fuel
  induction fuel with
  | zero => intro i arr ws _ hi _; simp [chunkLoop, hi]
  | succ fuel ih =>
    intro i arr ws h0 hi hmax
    have hadd : addInt i 0 = i := by
      unfold addInt wrapInt maxInt minInt at *
      split <;> omega
    have hnot : ¬ i > L := by omega
    simp only [chunkLoop, hi, if_true, hadd, hnot, if_false, h0, le_refl, and_self]
    exact ih i _ _ h0 hi hmax

/-- The chunks of a call without overflow, in terms of the rounded-up quotient. -/
theorem divideWork_chunks_no_overflow (input : List α) (W : Nat) (hW : 0 < W)
    (hno : (input.length : Int) + (W : Int) - 1 ≤ maxInt) :
    (∀ k, k < (divideWork input (W : Int) []).dividedWork.length ↔
      k * ((input.length + W - 1) / W) < input.length) ∧
    (∀ k, k < (divideWork input (W : Int) []).dividedWork.length →
      (divideWork input (W : Int) []).dividedWork[k]? =
        some (sortStrings (window input ((input.length + W - 1) / W) k))) ∧
    (divideWork input (W : Int) []).dividedWork.flatten =
      (divideWork input (W : Int) []).sampleData ∧
    (divideWork input (W : Int) []).sampleData.Perm input :=
  divideWork_chunks input (W : Int) _ (by omega)
    (exactSteps_of_no_overflow input.length W hW hno)

end DivideLemmas

/-- On overflow the chunk size can also wrap to 0: for six items and
`numberOfSlaves = 9223372036854775806` the loop appends empty chunks without
ever leaving. -/
theorem divideWork_zero_chunkSize_on_overflow :
    divInt (subInt (addInt 6 9223372036854775806) 1) 9223372036854775806 = 0 ∧
    (divideWork ["f", "e", "d", "c", "b", "a"] 9223372036854775806 []).exit =
      Exit.outOfFuel := by
  decide

/-! ## Properties of `mergeSortedSlice` -/

section MergeClaims

variable {α : Type} [LinearOrder α]

/-- Claim C3: for all sequences `x` and `y` that are each sorted in non-decreasing
order, `mergeSortedSlice x y` is sorted in non-decreasing order. -/
theorem mergeSortedSlice_sorted (x y : List α)
    (hx : x.Sorted (fun a b => a ≤ b)) (hy : y.Sorted (fun a b => a ≤ b)) :
    (mergeSortedSlice x y).Sorted (fun a b => a ≤ b) :=
  merge_sorted_of_sorted x y hx hy

/-- Witness of claim C3 on the sorted string slices `["a", "c"]` and `["b", "c", "d"]`. -/
theorem mergeSortedSlice_sorted_witness :
    (["a", "c"].Sorted (fun a b => a ≤ b) ∧ ["b", "c", "d"].Sorted (fun a b => a ≤ b)) ∧
    (mergeSortedSlice ["a", "c"] ["b", "c", "d"]).Sorted (fun a b => a ≤ b) :=
  ⟨⟨by simp; decide, by simp; decide⟩,
    mergeSortedSlice_sorted ["a", "c"] ["b", "c", "d"] (by simp; decide) (by simp; decide)⟩

/-- Claim C4: for all sequences `x` and `y`, sorted or not, `mergeSortedSlice x y`
has length `len(x) + len(y)` and is a permutation of `x ++ y`: every element occurs
in the result exactly as often as in `x` and `y` together. -/
theorem mergeSortedSlice_length_perm (x y : List α) :
    (mergeSortedSlice x y).length = x.length + y.length ∧
    (mergeSortedSlice x y).Perm (x ++ y) ∧
    ∀ a : α, (mergeSortedSlice x y).count a = x.count a + y.count a := by
  refine ⟨?_, merge_perm_append x y, ?_⟩
  · rw [(merge_perm_append x y).length_eq, List.length_append]
  · intro a
    rw [(merge_perm_append x y).count_eq, List.count_append]

/-- Claim C8: for non-empty `x = a :: x'` and `y = b :: y'`, `mergeSortedSlice`
writes the head of `x` first exactly when `a < b` and the head of `y` otherwise;
in particular on a tie `a = b` the result is `y[0]` followed by
`mergeSortedSlice(x, y[1:])`. -/
theorem mergeSortedSlice_head_choice (a b : α) (x y : List α) :
    mergeSortedSlice (a :: x) (b :: y) =
      (if a < b then a :: mergeSortedSlice x (b :: y)
       else b :: mergeSortedSlice (a :: x) y) ∧
    mergeSortedSlice (a :: x) (a :: y) = a :: mergeSortedSlice (a :: x) y := by
  refine ⟨merge_cons_cons a b x y, ?_⟩
  rw [merge_cons_cons, if_neg (lt_irrefl a)]

/-- Claim C9: for all sequences `x` and `y`, `mergeSortedSlice x y` is an
interleaving of `x` and `y`: the elements taken from `x` keep their relative order
in the result, and so do the elements taken from `y`. -/
theorem mergeSortedSlice_interleaving (x y : List α) :
    Interleaving x y (mergeSortedSlice x y) ∧
    x.Sublist (mergeSortedSlice x y) ∧ y.Sublist (mergeSortedSlice x y) :=
  ⟨merge_interleaving x y, (merge_interleaving x y).sublist_left,
    (merge_interleaving x y).sublist_right⟩

/-- Claim C10: for all sorted sequences `x`, `y` and `z`,
`mergeSortedSlice x y = mergeSortedSlice y x` and
`mergeSortedSlice (mergeSortedSlice x y) z = mergeSortedSlice x (mergeSortedSlice y z)`
as sequences. -/
theorem mergeSortedSlice_comm_assoc (x y z : List α)
    (hx : x.Sorted (fun a b => a ≤ b)) (hy : y.Sorted (fun a b => a ≤ b))
    (hz : z.Sorted (fun a b => a ≤ b)) :
    mergeSortedSlice x y = mergeSortedSlice y x ∧
    mergeSortedSlice (mergeSortedSlice x y) z =
      mergeSortedSlice x (mergeSortedSlice y z) := by
  have hxy := merge_sorted_of_sorted x y hx hy
  have hyz := merge_sorted_of_sorted y z hy hz
  constructor
  · refine List.eq_of_perm_of_sorted ?_ hxy (merge_sorted_of_sorted y x hy hx)
    exact (merge_perm_append x y).trans
      (List.perm_append_comm.trans (merge_perm_append y x).symm)
  · refine List.eq_of_perm_of_sorted ?_ (merge_sorted_of_sorted _ z hxy hz)
      (merge_sorted_of_sorted x _ hx hyz)
    refine (merge_perm_append _ z).trans ?_
    refine ((merge_perm_append x y).append_right z).trans ?_
    rw [List.append_assoc]
    exact ((merge_perm_append y z).symm.append_left x).trans
      (merge_perm_append x _).symm

/-- Witness of claim C10 on three sorted string slices that share the element `"b"`. -/
theorem mergeSortedSlice_comm_assoc_witness :
    (["a", "b"].Sorted (fun a b => a ≤ b) ∧ ["b", "c"].Sorted (fun a b => a ≤ b) ∧
      ["b"].Sorted (fun a b => a ≤ b)) ∧
    mergeSortedSlice ["a", "b"] ["b", "c"] = mergeSortedSlice ["b", "c"] ["a", "b"] ∧
    mergeSortedSlice (mergeSortedSlice ["a", "b"] ["b", "c"]) ["b"] =
      mergeSortedSlice ["a", "b"] (mergeSortedSlice ["b", "c"] ["b"]) :=
  ⟨⟨by simp; decide, by simp; decide, by simp⟩,
    mergeSortedSlice_comm_assoc ["a", "b"] ["b", "c"] ["b"] (by simp; decide)
      (by simp; decide) (by simp)⟩

end MergeClaims

/-! ## Properties of the election -/

/-- Claim C2: for `N ≥ 2` candidates with pairwise distinct descriptors that pass
through the critical section of `selectMasterNode` exactly once each, in any
order, from the initial state, the registry `nodes` ends with exactly `N`
entries, one per candidate, exactly one with role `"master"` and exactly `N - 1`
with role `"slave"`. -/
theorem election_one_master (cands order : List NodeInfo) (hN : 2 ≤ cands.length)
    (hnd : cands.Nodup) (horder : order.Perm cands) :
    (runElection Globals.initial order).nodes.length = cands.length ∧
    ((runElection Globals.initial order).nodes.map Prod.fst).Perm cands ∧
    roleCount (runElection Globals.initial order).nodes "master" = 1 ∧
    roleCount (runElection Globals.initial order).nodes "slave" = cands.length - 1 := by
  have hnd' : order.Nodup := horder.nodup_iff.mpr hnd
  have hlen : order.length = cands.length := horder.length_eq
  cases order with
  | nil => simp at hlen; omega
  | cons c cs =>
    rw [runElection_initial c cs hnd', ← hlen]
    refine ⟨by simp, ?_, ?_, ?_⟩
    · simpa [Function.comp_def] using horder
    · simp [roleCount, List.countP_cons, List.countP_map, Function.comp_def]
    · simp [roleCount, List.countP_cons, List.countP_map, Function.comp_def]

/-- Witness of claim C2: two candidates created by `createNode` on ports 3001 and
3002, the second one reaching the critical section first. -/
theorem election_one_master_witness :
    (2 ≤ [createNode "127.0.0.1" "3001", createNode "127.0.0.1" "3002"].length ∧
      [createNode "127.0.0.1" "3001", createNode "127.0.0.1" "3002"].Nodup ∧
      [createNode "127.0.0.1" "3002", createNode "127.0.0.1" "3001"].Perm
        [createNode "127.0.0.1" "3001", createNode "127.0.0.1" "3002"]) ∧
    roleCount (runElection Globals.initial
      [createNode "127.0.0.1" "3002", createNode "127.0.0.1" "3001"]).nodes "master" = 1 ∧
    roleCount (runElection Globals.initial
      [createNode "127.0.0.1" "3002", createNode "127.0.0.1" "3001"]).nodes "slave" = 1 :=
  ⟨⟨by decide, by decide, List.Perm.swap _ _ []⟩,
    (election_one_master [createNode "127.0.0.1" "3001", createNode "127.0.0.1" "3002"]
      [createNode "127.0.0.1" "3002", createNode "127.0.0.1" "3001"] (by decide) (by decide)
      (List.Perm.swap _ _ [])).2.2⟩

/-! ## Properties of `divideWork` -/

section DivideClaims

variable {α : Type} [LinearOrder α]

/-- Claim C5, amended: for an input of length `L` and `W ≥ 1` such that
`L + W - 1` does not exceed the largest `int`, every chunk built by the chunking
loop of `divideWork` except possibly the last has length exactly `ceil(L/W)`, the
last one has length at most `ceil(L/W)`, and the chunk lengths sum to exactly `L`. -/
theorem divideWork_chunk_lengths (input : List α) (W : Int) (hW : 1 ≤ W)
    (hno : (input.length : Int) + W - 1 ≤ maxInt) :
    (∀ (k : Nat) (c : List α), (divideWork input W []).dividedWork[k]? = some c →
      k + 1 < (divideWork input W []).dividedWork.length →
      c.length = ⌈(input.length : ℚ) / (W : ℚ)⌉₊) ∧
    (∀ c : List α, (divideWork input W []).dividedWork.getLast? = some c →
      c.length ≤ ⌈(input.length : ℚ) / (W : ℚ)⌉₊) ∧
    ((divideWork input W []).dividedWork.map List.length).sum = input.length := by
  obtain ⟨n, rfl⟩ : ∃ n : Nat, W = (n : Int) := ⟨W.toNat, by omega⟩
  have hn : 0 < n := by omega
  obtain ⟨hcount, hchunk, hflat, hperm⟩ := divideWork_chunks_no_overflow input n hn hno
  rw [Int.cast_natCast, ← chunkSize_eq_ceil input.length n hn]
  have hlenk : ∀ (k : Nat) (c : List α),
      (divideWork input (n : Int) []).dividedWork[k]? = some c →
      c.length = min ((k + 1) * ((input.length + n - 1) / n)) input.length -
        k * ((input.length + n - 1) / n) := by
    intro k c hc
    have hk : k < (divideWork input (n : Int) []).dividedWork.length := by
      by_contra hge
      rw [List.getElem?_eq_none (Nat.not_lt.mp hge)] at hc
      exact Option.noConfusion hc
    rw [hchunk k hk] at hc
    rw [← Option.some.inj hc, sortStrings_length, window,
      sliceOf_length input _ _ (Nat.min_le_right _ _)]
  refine ⟨?_, ?_, ?_⟩
  · intro k c hc hk
    have h1 := (hcount (k + 1)).mp hk
    rw [hlenk k c hc, Nat.min_eq_left (Nat.le_of_lt h1), Nat.add_mul, Nat.one_mul]
    exact Nat.add_sub_cancel_left _ _
  · intro c hc
    rw [List.getLast?_eq_getElem?] at hc
    rw [hlenk _ c hc, Nat.add_mul, Nat.one_mul]
    exact Nat.le_trans (Nat.sub_le_sub_right (Nat.min_le_left _ _) _)
      (Nat.le_of_eq (Nat.add_sub_cancel_left _ _))
  · rw [← List.length_flatten, hflat, hperm.length_eq]

/-- Witness of claim C5: five strings cut for two slaves give chunks of lengths 3
and 2. -/
theorem divideWork_chunk_lengths_witness :
    ((1 : Int) ≤ 2 ∧ ((["e", "d", "c", "b", "a"].length : Nat) : Int) + 2 - 1 ≤ maxInt) ∧
    ((divideWork ["e", "d", "c", "b", "a"] 2 []).dividedWork.map List.length).sum =
      ["e", "d", "c", "b", "a"].length :=
  ⟨⟨by decide, by decide⟩,
    (divideWork_chunk_lengths ["e", "d", "c", "b", "a"] 2 (by decide) (by decide)).2.2⟩

/-- Claim C5 as stated fails when `lenOfData + numberOfSlaves - 1` overflows: for
three items and `numberOfSlaves = 9223372036854775806` the sum wraps around, the
chunk size is `-1`, the slice expression `sampleData[0:-1]` panics in the first
iteration, no chunk is built and the chunk lengths sum to 0, not 3. -/
theorem divideWork_chunk_lengths_overflow :
    (1 : Int) ≤ 9223372036854775806 ∧
    (divideWork ["c", "b", "a"] 9223372036854775806 []).exit =
      Exit.panic Panic.sliceBoundsOutOfRange ∧
    (divideWork ["c", "b", "a"] 9223372036854775806 []).dividedWork = [] ∧
    ((divideWork ["c", "b", "a"] 9223372036854775806 []).dividedWork.map List.length).sum ≠
      ["c", "b", "a"].length := by
  decide

/-- Claim C6, amended: for an input of length `L` and `W ≥ 1` such that
`L + W - 1` does not exceed the largest `int`, with `chunkSize = ceil(L/W)`, the
chunks built by `divideWork` are, in this order, the sorted copies of the windows
`input[k*chunkSize : min((k+1)*chunkSize, L)]` of the original input, one for
every `k` with `k*chunkSize < L`; and sorting a window in place changes no window
that lies entirely to its left or to its right. -/
theorem divideWork_chunks_are_sorted_windows (input : List α) (W : Int) (hW : 1 ≤ W)
    (hno : (input.length : Int) + W - 1 ≤ maxInt) :
    (∀ k : Nat, k < (divideWork input W []).dividedWork.length ↔
      k * ⌈(input.length : ℚ) / (W : ℚ)⌉₊ < input.length) ∧
    (∀ k : Nat, k < (divideWork input W []).dividedWork.length →
      (divideWork input W []).dividedWork[k]? =
        some (sortStrings (window input ⌈(input.length : ℚ) / (W : ℚ)⌉₊ k))) ∧
    (∀ (arr : List α) (lo hi lo' hi' : Nat), lo ≤ hi → hi ≤ arr.length →
      hi' ≤ lo ∨ hi ≤ lo' →
      sliceOf (sortWindow arr lo hi) lo' hi' = sliceOf arr lo' hi') := by
  obtain ⟨n, rfl⟩ : ∃ n : Nat, W = (n : Int) := ⟨W.toNat, by omega⟩
  have hn : 0 < n := by omega
  obtain ⟨hcount, hchunk, _, _⟩ := divideWork_chunks_no_overflow input n hn hno
  rw [Int.cast_natCast, ← chunkSize_eq_ceil input.length n hn]
  refine ⟨hcount, hchunk, ?_⟩
  intro arr lo hi lo' hi' hlo hhi hside
  rcases hside with h | h
  · exact sliceOf_sortWindow_left arr lo hi lo' hi' (Nat.le_trans hlo hhi) h
  · exact sliceOf_sortWindow_right arr lo hi lo' hi' hlo hhi h

/-- Witness of claim C6: the second chunk of five strings cut for two slaves is the
sorted window `input[3:5]`. -/
theorem divideWork_chunks_are_sorted_windows_witness :
    ((1 : Int) ≤ 2 ∧ ((["e", "d", "c", "b", "a"].length : Nat) : Int) + 2 - 1 ≤ maxInt) ∧
    (divideWork ["e", "d", "c", "b", "a"] 2 []).dividedWork[1]? =
      some (sortStrings (window ["e", "d", "c", "b", "a"]
        ⌈((["e", "d", "c", "b", "a"].length : Nat) : ℚ) / ((2 : Int) : ℚ)⌉₊ 1)) :=
  ⟨⟨by decide, by decide⟩,
    (divideWork_chunks_are_sorted_windows ["e", "d", "c", "b", "a"] 2 (by decide)
      (by decide)).2.1 1
      (((divideWork_chunks_no_overflow ["e", "d", "c", "b", "a"] 2 (by decide)
        (by decide)).1 1).mpr (by decide))⟩

/-- Claim C6 as stated fails when `lenOfData + numberOfSlaves - 1` overflows: for
three items and `numberOfSlaves = 9223372036854775806` the window
`input[0 : ceil(3/W)]` starts inside the input, yet `divideWork` builds no chunk
at all: the chunk size wraps to `-1` and the first slice expression panics. -/
theorem divideWork_windows_overflow :
    (1 : Int) ≤ 9223372036854775806 ∧
    (divideWork ["c", "b", "a"] 9223372036854775806 []).dividedWork[0]? = none ∧
    ¬ (∀ k : Nat, k < (divideWork ["c", "b", "a"] 9223372036854775806 []).dividedWork.length ↔
      k * ⌈((["c", "b", "a"].length : Nat) : ℚ) /
        ((9223372036854775806 : Int) : ℚ)⌉₊ < ["c", "b", "a"].length) := by
  have hdw : (divideWork ["c", "b", "a"] 9223372036854775806 []).dividedWork = [] := by
    decide
  refine ⟨by decide, by rw [hdw]; rfl, ?_⟩
  intro h
  have h0 := (h 0).mpr (by simp)
  rw [hdw] at h0
  exact absurd h0 (by simp)

/-- Claim C1 on the input `["b", "a", "d", "c"]`: with two slaves `divideWork`
returns the input sorted; with three slaves the chunk size is 2, only two chunks
are built, and the merge loop panics with an index out of range when it reads
`dividedWork[2]`. -/
theorem divideWork_panics_with_three_slaves :
    (divideWork ["b", "a", "d", "c"] 2 []).exit = Exit.returned ["a", "b", "c", "d"] ∧
    (divideWork ["b", "a", "d", "c"] 3 []).exit = Exit.panic Panic.indexOutOfRange := by
  constructor <;>
    simp +decide [divideWork, chunkLoop, sortWindow, sliceOf, sortStrings, mergeFold,
      mergeSortedSlice, mergeSortedSlice.walk, addInt, subInt, divInt, wrapInt, maxInt,
      minInt]

/-- Claim C7 on the input `["b", "a", "d", "c"]` with three slaves: `divideWork`
builds the two chunks `["a", "b"]` and `["c", "d"]`, not three. -/
theorem divideWork_two_chunks_for_three_slaves :
    (divideWork ["b", "a", "d", "c"] 3 []).dividedWork = [["a", "b"], ["c", "d"]] ∧
    (divideWork ["b", "a", "d", "c"] 3 []).dividedWork.length ≠ 3 := by
  have h : (divideWork ["b", "a", "d", "c"] 3 []).dividedWork = [["a", "b"], ["c", "d"]] := by
    simp +decide [divideWork, chunkLoop, sortWindow, sliceOf, sortStrings, mergeFold,
      mergeSortedSlice, mergeSortedSlice.walk, addInt, subInt, divInt, wrapInt, maxInt,
      minInt]
  exact ⟨h, by rw [h]; decide⟩

end DivideClaims

/-! ## Further lemmas -/

theorem runElection_keeps_master (order : List NodeInfo) :
    ∀ g : Globals, g.masterKey = true →
      (runElection g order).masterKey = true ∧
      (runElection g order).masterNode = g.masterNode := by
  induction order with
  | nil => intro g hk; exact ⟨hk, rfl⟩
  | cons c cs ih =>
    intro g hk
    have hstep : (selectMasterNode g c).masterKey = true ∧
        (selectMasterNode g c).masterNode = g.masterNode := by
      simp [selectMasterNode, hk]
    have hrun : runElection g (c :: cs) = runElection (selectMasterNode g c) cs := rfl
    rw [hrun]
    exact ⟨(ih _ hstep.1).1, (ih _ hstep.1).2.trans hstep.2⟩

section MoreDivideLemmas

variable {α : Type} [LinearOrder α]

theorem window_zero_full {β : Type} (input : List β) :
    window input input.length 0 = input := by
  simp [window, sliceOf]

theorem divideWork_one_slave_chunks (input : List α) (h : input ≠ []) :
    (divideWork input 1 []).dividedWork = [sortStrings input] := by
  obtain ⟨hcount, hchunk, _, _⟩ :=
    divideWork_chunks input 1 input.length one_ne_zero (exactSteps_one input.length)
  have hL : 0 < input.length := List.length_pos.mpr h
  have h0 : 0 < (divideWork input 1 []).dividedWork.length := (hcount 0).mpr (by simpa using hL)
  have h1 : ¬ 1 < (divideWork input 1 []).dividedWork.length := by
    intro hlt
    have := (hcount 1).mp hlt
    simp at this
  have hc := hchunk 0 h0
  rw [window_zero_full] at hc
  generalize (divideWork input 1 []).dividedWork = dw at h0 h1 hc
  match dw, h0, h1, hc with
  | [c], _, _, hc =>
    simp only [List.getElem?_cons_zero] at hc
    rw [Option.some.inj hc]
  | _ :: _ :: _, _, h1, _ => exact absurd (by simp) h1

theorem divideWork_chunk_count (input : List α) (W : Nat) (hW : 0 < W)
    (hno : (input.length : Int) + (W : Int) - 1 ≤ maxInt) (hL : 0 < input.length) :
    (divideWork input (W : Int) []).dividedWork.length =
      (input.length + (input.length + W - 1) / W - 1) / ((input.length + W - 1) / W) := by
  obtain ⟨hcount, _, _, _⟩ := divideWork_chunks_no_overflow input W hW hno
  have hcs := chunkSize_pos input.length W hL hW
  generalize (input.length + W - 1) / W = cs at hcount hcs
  generalize (divideWork input (W : Int) []).dividedWork.length = n at hcount
  have key : ∀ k, k < (input.length + cs - 1) / cs ↔ k * cs < input.length := by
    intro k
    rw [← Nat.succ_le_iff, Nat.le_div_iff_mul_le hcs, Nat.succ_mul]
    omega
  apply le_antisymm
  · by_contra hlt
    have h1 := Nat.lt_of_not_le hlt
    exact Nat.lt_irrefl _ ((key _).mpr ((hcount _).mp h1))
  · by_contra hlt
    have h1 := Nat.lt_of_not_le hlt
    exact Nat.lt_irrefl _ ((hcount _).mpr ((key _).mp h1))

theorem divideWork_chunks_nonempty (input : List α) (W : Nat) (hW : 0 < W)
    (hno : (input.length : Int) + (W : Int) - 1 ≤ maxInt) (hL : 0 < input.length) :
    ∀ c ∈ (divideWork input (W : Int) []).dividedWork, c ≠ [] := by
  intro c hc
  obtain ⟨hcount, hchunk, _, _⟩ := divideWork_chunks_no_overflow input W hW hno
  have hcs := chunkSize_pos input.length W hL hW
  obtain ⟨k, hk, hck⟩ := List.mem_iff_getElem.mp hc
  have h := hchunk k hk
  rw [List.getElem?_eq_getElem hk, hck] at h
  have hlo := (hcount k).mp hk
  have hlen : c.length = min ((k + 1) * ((input.length + W - 1) / W)) input.length -
      k * ((input.length + W - 1) / W) := by
    rw [Option.some.inj h, sortStrings_length, window,
      sliceOf_length input _ _ (Nat.min_le_right _ _)]
  intro hnil
  rw [hnil, List.length_nil, Nat.add_mul, Nat.one_mul] at hlen
  generalize (input.length + W - 1) / W = cs at hlen hcs hlo
  generalize k * cs = a at hlen hlo
  omega

theorem divideWork_empty_input (W : Nat) (hW : 0 < W) (hno : (W : Int) - 1 ≤ maxInt) :
    (divideWork ([] : List α) (W : Int) []).dividedWork = [] := by
  obtain ⟨hcount, _, _, _⟩ :=
    divideWork_chunks_no_overflow ([] : List α) W hW (by simpa using hno)
  apply List.eq_nil_of_length_eq_zero
  by_contra hne
  have := (hcount 0).mp (Nat.pos_of_ne_zero hne)
  simp at this

end MoreDivideLemmas

/-- With source status `"up"` the reply of `handleConnection` is built from the
request alone and the process state is returned as it was. -/
theorem handleConnection_up (p : Process) (request : data)
    (h : request.Source.Status = "up") :
    handleConnection p request =
      (p, some (getRequestObject request.Dest request.Source request.Message)) := by
  simp [handleConnection, h]

/-! ## Further properties of `divideWork` -/

section MoreDivideClaims

variable {α : Type} [LinearOrder α]

/-- Claim C13: for every non-empty input, `divideWork` with one slave builds exactly
one chunk, the whole input sorted, and returns that chunk as `result`: the merge
loop runs zero times. -/
theorem divideWork_single_slave (input : List α) (h : input ≠ []) :
    (divideWork input 1 []).dividedWork = [sortStrings input] ∧
    (divideWork input 1 []).exit = Exit.returned (sortStrings input) ∧
    mergeFold (divideWork input 1 []).dividedWork (1 - 1) 1 (sortStrings input) =
      some (sortStrings input) := by
  have hdw := divideWork_one_slave_chunks input h
  refine ⟨hdw, ?_, rfl⟩
  have hret := divideWork_returns_of_chunks_eq input 1 input.length Nat.one_pos
    (by simpa using exactSteps_one input.length) (by simp [hdw])
  simpa using hret

/-- Witness of claim C13 on the input `["b", "a", "d", "c"]`. -/
theorem divideWork_single_slave_witness :
    ["b", "a", "d", "c"] ≠ [] ∧
    (divideWork ["b", "a", "d", "c"] 1 []).dividedWork = [sortStrings ["b", "a", "d", "c"]] :=
  ⟨by decide, (divideWork_single_slave ["b", "a", "d", "c"] (by decide)).1⟩

/-- Claim C14: for every input, `divideWork` with `numberOfSlaves = 0` panics on the
division that computes `chunkSize`, before the chunking loop: no chunk is appended
to `dividedWork` and `sampleData` is not touched; in `main` the panic ends the
program before any candidate enters the election, so the election globals keep
their initial values and no connection is opened. -/
theorem divideWork_zero_slaves (input : List α) (dividedWork₀ : List (List α))
    (order : List NodeInfo) :
    (divideWork input 0 dividedWork₀).exit = Exit.panic Panic.divideByZero ∧
    (divideWork input 0 dividedWork₀).dividedWork = dividedWork₀ ∧
    (divideWork input 0 dividedWork₀).sampleData = input ∧
    (mainBody input 0 order).stop = MainStop.panicked Panic.divideByZero ∧
    (mainBody input 0 order).globals = Globals.initial ∧
    (mainBody input 0 order).dividedWork = [] := by
  have h : ∀ dw : List (List α), divideWork input 0 dw =
      { sampleData := input, dividedWork := dw, exit := Exit.panic Panic.divideByZero } := by
    intro dw; simp [divideWork]
  refine ⟨by rw [h], by rw [h], by rw [h], ?_, ?_, ?_⟩ <;> simp [mainBody, h]

/-- Claim C15, amended: for `W ≥ 1` such that `L + W - 1` does not exceed the
largest `int`, and `dividedWork` initially empty, `divideWork` panics with an index
out of range exactly when it has built fewer than `W` chunks, which is the case
whenever the input is empty and, for example, for 4 items and 3 slaves or 1 item
and 2 slaves; when it has built `W` chunks it returns. -/
theorem divideWork_panics_iff_fewer_chunks (input : List α) (W : Int) (hW : 1 ≤ W)
    (hno : (input.length : Int) + W - 1 ≤ maxInt) :
    ((divideWork input W []).exit = Exit.panic Panic.indexOutOfRange ↔
      ((divideWork input W []).dividedWork.length : Int) < W) ∧
    (((divideWork input W []).dividedWork.length : Int) = W →
      (divideWork input W []).exit = Exit.returned (sortStrings input)) ∧
    (input.length = 0 →
      (divideWork input W []).exit = Exit.panic Panic.indexOutOfRange) ∧
    (input.length = 4 ∧ W = 3 ∨ input.length = 1 ∧ W = 2 →
      (divideWork input W []).exit = Exit.panic Panic.indexOutOfRange) := by
  obtain ⟨n, rfl⟩ : ∃ n : Nat, W = (n : Int) := ⟨W.toNat, by omega⟩
  have hn : 0 < n := by omega
  have hs := exactSteps_of_no_overflow input.length n hn hno
  have hle := divideWork_chunks_le input n hn hno
  have hcount := (divideWork_chunks_no_overflow input n hn hno).1
  have hpanic := divideWork_panics_of_chunks_lt input n _ hn hs
  have hret := divideWork_returns_of_chunks_eq input n _ hn hs
  refine ⟨⟨?_, fun h => hpanic (by omega)⟩, fun h => hret (by omega), ?_, ?_⟩
  · intro hp
    rcases Nat.lt_or_ge (divideWork input (n : Int) []).dividedWork.length n with hlt | hge
    · omega
    · rw [hret (Nat.le_antisymm hle hge)] at hp
      exact Exit.noConfusion hp
  · intro hL
    apply hpanic
    apply Nat.lt_of_lt_of_le _ hn
    by_contra hne
    have := (hcount 0).mp (Nat.pos_of_ne_zero (by omega))
    omega
  · intro hcase
    apply hpanic
    by_contra hge
    have hlast := (hcount (n - 1)).mp (by omega)
    rcases hcase with ⟨hL, hW3⟩ | ⟨hL, hW2⟩
    · have hn3 : n = 3 := by omega
      rw [hL, hn3] at hlast; exact absurd hlast (by decide)
    · have hn2 : n = 2 := by omega
      rw [hL, hn2] at hlast; exact absurd hlast (by decide)

/-- Witness of claim C15: one item and two slaves. -/
theorem divideWork_panics_iff_fewer_chunks_witness :
    ((1 : Int) ≤ 2 ∧ ((["a"].length : Nat) : Int) + 2 - 1 ≤ maxInt ∧
      (["a"].length = 4 ∧ (2 : Int) = 3 ∨ ["a"].length = 1 ∧ (2 : Int) = 2)) ∧
    (divideWork ["a"] 2 []).exit = Exit.panic Panic.indexOutOfRange :=
  ⟨⟨by decide, by decide, by decide⟩,
    (divideWork_panics_iff_fewer_chunks ["a"] 2 (by decide) (by decide)).2.2.2 (by decide)⟩

/-- Claim C15 as stated fails when `lenOfData + numberOfSlaves - 1` overflows: for
three items and `numberOfSlaves = 9223372036854775806` fewer than `W` chunks are
built (none), but the call fails inside the chunking loop with slice bounds out of
range, not with an index out of range at `dividedWork[0]` or in the merge loop. -/
theorem divideWork_slice_bounds_overflow :
    (1 : Int) ≤ 9223372036854775806 ∧
    ((divideWork ["c", "b", "a"] 9223372036854775806 []).dividedWork.length : Int) <
      9223372036854775806 ∧
    (divideWork ["c", "b", "a"] 9223372036854775806 []).exit =
      Exit.panic Panic.sliceBoundsOutOfRange ∧
    (divideWork ["c", "b", "a"] 9223372036854775806 []).exit ≠
      Exit.panic Panic.indexOutOfRange := by
  decide

/-- Claim C16, amended: for an input of length `L ≥ 1` and `W ≥ 1` such that
`L + W - 1` does not exceed the largest `int`, the chunking loop of `divideWork`
builds exactly `ceil(L / ceil(L/W))` chunks, at most `W`, none of them empty; for
`L = 0` it builds no chunk. -/
theorem divideWork_chunk_count_ceil (input : List α) (W : Int) (hW : 1 ≤ W)
    (hno : (input.length : Int) + W - 1 ≤ maxInt) :
    (1 ≤ input.length →
      (divideWork input W []).dividedWork.length =
        ⌈(input.length : ℚ) / ((⌈(input.length : ℚ) / (W : ℚ)⌉₊ : ℕ) : ℚ)⌉₊ ∧
      ((divideWork input W []).dividedWork.length : Int) ≤ W ∧
      ∀ c ∈ (divideWork input W []).dividedWork, c ≠ []) ∧
    (input.length = 0 → (divideWork input W []).dividedWork = []) := by
  obtain ⟨n, rfl⟩ : ∃ n : Nat, W = (n : Int) := ⟨W.toNat, by omega⟩
  have hn : 0 < n := by omega
  constructor
  · intro hL
    refine ⟨?_, Int.ofNat_le.mpr (divideWork_chunks_le input n hn hno),
      divideWork_chunks_nonempty input n hn hno hL⟩
    rw [Int.cast_natCast, ← chunkSize_eq_ceil input.length n hn,
      ← chunkSize_eq_ceil input.length _ (chunkSize_pos input.length n hL hn)]
    exact divideWork_chunk_count input n hn hno hL
  · intro hL
    have hnil := List.length_eq_zero.mp hL
    subst hnil
    exact divideWork_empty_input n hn (by simpa using hno)

/-- Witness of claim C16: four items and three slaves give two chunks. -/
theorem divideWork_chunk_count_ceil_witness :
    ((1 : Int) ≤ 3 ∧ ((["b", "a", "d", "c"].length : Nat) : Int) + 3 - 1 ≤ maxInt ∧
      1 ≤ ["b", "a", "d", "c"].length) ∧
    ((divideWork ["b", "a", "d", "c"] 3 []).dividedWork.length : Int) ≤ 3 :=
  ⟨⟨by decide, by decide, by decide⟩,
    ((divideWork_chunk_count_ceil ["b", "a", "d", "c"] 3 (by decide) (by decide)).1
      (by decide)).2.1⟩

/-- Claim C16 as stated fails when `lenOfData + numberOfSlaves - 1` overflows: for
three items and `numberOfSlaves = 9223372036854775806` the loop builds no chunk,
whereas `ceil(3 / ceil(3/W))` is positive. -/
theorem divideWork_chunk_count_overflow :
    (1 : Int) ≤ 9223372036854775806 ∧ 1 ≤ ["c", "b", "a"].length ∧
    (divideWork ["c", "b", "a"] 9223372036854775806 []).dividedWork.length = 0 ∧
    (divideWork ["c", "b", "a"] 9223372036854775806 []).dividedWork.length ≠
      ⌈((["c", "b", "a"].length : Nat) : ℚ) /
        ((⌈((["c", "b", "a"].length : Nat) : ℚ) /
          ((9223372036854775806 : Int) : ℚ)⌉₊ : ℕ) : ℚ)⌉₊ := by
  have hdw : (divideWork ["c", "b", "a"] 9223372036854775806 []).dividedWork.length = 0 := by
    decide
  refine ⟨by decide, by decide, hdw, ?_⟩
  rw [hdw]
  apply Nat.ne_of_lt
  rw [Nat.ceil_pos]
  apply div_pos
  · norm_num
  · rw [Nat.cast_pos, Nat.ceil_pos]
    apply div_pos <;> norm_num

end MoreDivideClaims

/-! ## Further properties of the election -/

/-- Claim C17: after a non-empty sequence `c :: cs` of candidates has passed
through `selectMasterNode` from the initial state, `masterKey` is true and
`masterNode` is the first candidate `c`; a candidate that finds `masterKey` set
leaves `masterKey` and `masterNode` as they are; and when the candidates are
pairwise distinct, the registry holds `masterNode` with role `"master"` and no
other key has that role. -/
theorem election_master_reference (c : NodeInfo) (cs : List NodeInfo) :
    (runElection Globals.initial (c :: cs)).masterKey = true ∧
    (runElection Globals.initial (c :: cs)).masterNode = c ∧
    (∀ (g : Globals) (n : NodeInfo), g.masterKey = true →
      (selectMasterNode g n).masterKey = true ∧
      (selectMasterNode g n).masterNode = g.masterNode) ∧
    ((c :: cs).Nodup →
      ((runElection Globals.initial (c :: cs)).masterNode, "master") ∈
        (runElection Globals.initial (c :: cs)).nodes ∧
      ∀ e ∈ (runElection Globals.initial (c :: cs)).nodes,
        (e.2 = "master" ↔ e.1 = (runElection Globals.initial (c :: cs)).masterNode)) := by
  have hstep : (selectMasterNode Globals.initial c).masterKey = true ∧
      (selectMasterNode Globals.initial c).masterNode = c := by
    simp [selectMasterNode, Globals.initial]
  have hrun : runElection Globals.initial (c :: cs) =
      runElection (selectMasterNode Globals.initial c) cs := rfl
  have hkeep := runElection_keeps_master cs _ hstep.1
  refine ⟨?_, ?_, ?_, ?_⟩
  · rw [hrun]; exact hkeep.1
  · rw [hrun]; exact hkeep.2.trans hstep.2
  · intro g n hk
    simp [selectMasterNode, hk]
  · intro hnd
    have hnd' := List.nodup_cons.mp hnd
    rw [runElection_initial c cs hnd]
    refine ⟨by simp, ?_⟩
    intro e he
    rcases List.mem_cons.mp he with h | h
    · subst h; simp
    · obtain ⟨d, hd, hde⟩ := List.mem_map.mp h
      subst hde
      have hne : d ≠ c := fun hdc => hnd'.1 (hdc ▸ hd)
      simp [hne]

/-- Witness of claim C17: two distinct candidates, the one on port 3002 first. -/
theorem election_master_reference_witness :
    [createNode "127.0.0.1" "3002", createNode "127.0.0.1" "3001"].Nodup ∧
    ((runElection Globals.initial
        [createNode "127.0.0.1" "3002", createNode "127.0.0.1" "3001"]).masterNode,
      "master") ∈
      (runElection Globals.initial
        [createNode "127.0.0.1" "3002", createNode "127.0.0.1" "3001"]).nodes :=
  ⟨by decide,
    ((election_master_reference (createNode "127.0.0.1" "3002")
      [createNode "127.0.0.1" "3001"]).2.2.2 (by decide)).1⟩

/-! ## Properties of the message exchange -/

/-- Claim C11 on the run with input `["b", "a", "d", "c"]`, two slaves and the
candidate on port 3001 elected master: the slave on port 3002 reports `"up"`, and
the reply of `handleConnection` carries the payload `["Message"]` of the request,
which is none of the chunks `["a", "b"]`, `["c", "d"]` of `dividedWork`; source and
destination are those of the request, swapped. -/
theorem handleConnection_up_echoes_request :
    (handleConnection
        { dividedWork := [["a", "b"], ["c", "d"]],
          globals := runElection Globals.initial
            [createNode "127.0.0.1" "3001", createNode "127.0.0.1" "3002"] }
        { Source := { createNode "127.0.0.1" "3002" with Status := "up" },
          Dest := createNode "127.0.0.1" "3001", Message := ["Message"] }).2 =
      some { Source := createNode "127.0.0.1" "3001",
             Dest := { createNode "127.0.0.1" "3002" with Status := "up" },
             Message := ["Message"] } ∧
    ["Message"] ∉ [["a", "b"], ["c", "d"]] ∧
    (divideWork ["b", "a", "d", "c"] 2 []).dividedWork = [["a", "b"], ["c", "d"]] := by
  refine ⟨by decide, by decide, ?_⟩
  simp +decide [divideWork, chunkLoop, sortWindow, sliceOf, sortStrings, mergeFold,
    mergeSortedSlice, mergeSortedSlice.walk, addInt, subInt, divInt, wrapInt, maxInt, minInt]

/-- Claim C12 on the dispatched chunk `["b", "a"]`: the request
`handleResponseFromMaster` sends back has source status `"down"` and goes to the
sender of the dispatch, but its payload is `["b", "a"]` as received, not the
sorted chunk `["a", "b"]`. -/
theorem handleResponseFromMaster_does_not_sort :
    handleResponseFromMaster
        { Source := createNode "127.0.0.1" "3001",
          Dest := { createNode "127.0.0.1" "3002" with Status := "up" },
          Message := ["b", "a"] } =
      { Source := createNode "127.0.0.1" "3002",
        Dest := createNode "127.0.0.1" "3001", Message := ["b", "a"] } ∧
    sortStrings ["b", "a"] = ["a", "b"] ∧
    (handleResponseFromMaster
        { Source := createNode "127.0.0.1" "3001",
          Dest := { createNode "127.0.0.1" "3002" with Status := "up" },
          Message := ["b", "a"] }).Message ≠ sortStrings ["b", "a"] := by
  have hs : sortStrings ["b", "a"] = ["a", "b"] := by simp +decide [sortStrings]
  refine ⟨by decide, hs, ?_⟩
  rw [hs]
  decide

/-- Claim C18: the request built by `connectToNode`, answered by
`handleConnection` and answered in turn by `handleResponseFromMaster` yields a
result message whose source is the worker descriptor with status `"down"`, whose
destination is `masterNode` and whose payload is `["Message"]`, whatever the input
data and whatever `dividedWork` holds. -/
theorem round_trip_payload (p : Process) (node : NodeInfo) :
    (handleConnection p (connectToNode p node)).2.map handleResponseFromMaster =
      some { Source := { node with Status := "down" }, Dest := p.globals.masterNode,
             Message := ["Message"] } := by
  simp [handleConnection, connectToNode, getRequestObject, handleResponseFromMaster]

/-- Claim C19: on a request whose source status is `"down"`, `handleConnection`
writes no reply and returns the process state (`dividedWork`, `nodes`,
`masterNode`, `masterKey`) unchanged: the payload is not stored. -/
theorem handleConnection_down_noop (p : Process) (request : data)
    (h : request.Source.Status = "down") :
    (handleConnection p request).2 = none ∧
    (handleConnection p request).1 = p := by
  simp [handleConnection, h]

/-- Witness of claim C19: the result message of a worker carrying the sorted chunk
`["a", "b"]`. -/
theorem handleConnection_down_noop_witness :
    (({ Source := createNode "127.0.0.1" "3002", Dest := createNode "127.0.0.1" "3001",
        Message := ["a", "b"] } : data).Source.Status = "down") ∧
    (handleConnection
        { dividedWork := [["a", "b"], ["c", "d"]], globals := Globals.initial }
        { Source := createNode "127.0.0.1" "3002", Dest := createNode "127.0.0.1" "3001",
          Message := ["a", "b"] }).2 = none :=
  ⟨rfl,
    (handleConnection_down_noop
      { dividedWork := [["a", "b"], ["c", "d"]], globals := Globals.initial }
      { Source := createNode "127.0.0.1" "3002", Dest := createNode "127.0.0.1" "3001",
        Message := ["a", "b"] } rfl).1⟩

end DistSort
